import Mathlib

/-!
Verification of the elastic-package LLM documentation agent.

This file gives a shallow embedding, in Lean 4, of the core of the
`internal/llmagent` package: the agent execution loop (`agent.go`), the
filesystem-sandboxed tools (`tools.go`), the response classifier and the
session backup/restore and preserved-section logic (`docagent.go`).

Go strings are modelled as Lean `String` (a wrapper around `List Char`);
Go byte-level operations from `strings` and `path/filepath` are
re-implemented over `List Char`, faithful to their documented lexical
semantics on Unix.  Filesystem effects are modelled by explicit traces of
`FsOp` operations and a map-like filesystem state.  The LLM provider is an
external collaborator: it is modelled as an oracle function from the call
ordinal (its internal state across calls) and the rendered prompt to a
transport result.
-/

namespace LLMAgent

/-! ## Go `strings` primitives over `List Char` -/

/-- `strings.Contains(haystack, needle)`: substring occurrence test.
Matches Go semantics (`Contains(s, "") = true`). -/
def listContainsSub : List Char → List Char → Bool
  | [], n => n.isEmpty
  | h :: t, n => n.isPrefixOf (h :: t) || listContainsSub t n

/-- `strings.Index(haystack, needle)`: position of the first occurrence,
`none` for Go's `-1`.  (`Index(s, "") = 0`.) -/
def listIndexOfSub : List Char → List Char → Option Nat
  | [], n => if n.isEmpty then some 0 else none
  | h :: t, n =>
    if n.isPrefixOf (h :: t) then some 0
    else (listIndexOfSub t n).map (· + 1)

/-- `strings.Contains` on `String`. -/
def goContains (s sub : String) : Bool := listContainsSub s.data sub.data

/-- `strings.HasPrefix` on `String`. -/
def goHasPre (s pre : String) : Bool := pre.data.isPrefixOf s.data

/-- `strings.ToLower`, restricted to ASCII case mapping (all phrase tables
in the source are ASCII, so this restriction is invisible to the claims). -/
def goToLower (s : String) : String := ⟨s.data.map Char.toLower⟩

/-- `strings.TrimSpace`, with ASCII whitespace (the classifier only
compares the trimmed string against `""`). -/
def goTrimSpace (s : String) : String :=
  ⟨(((s.data.dropWhile Char.isWhitespace).reverse.dropWhile
      Char.isWhitespace).reverse)⟩

/-! ## Agent data model

The provider-side record types are declared in the repository's
`provider.go`; their field shapes are fixed by the uses in `agent.go` and
`tools.go` and by the spec's data-model section (ConversationEntry,
ToolCall, ToolResult, LLMResponse, TaskResult). -/

/-- `ConversationEntry`: one transcript entry
(`Type` is `"user"`, `"assistant"` or `"tool_result"`). -/
structure ConversationEntry where
  type : String
  content : String
deriving DecidableEq, Repr

/-- `ToolCall`: a structured tool invocation produced by a provider. -/
structure ToolCall where
  id : String
  name : String
  arguments : String
deriving DecidableEq, Repr

/-- `ToolResult`: tool outcome; `error ≠ ""` is a domain failure
(Go: `ToolResult{Content, Error string}`). -/
structure ToolResult where
  content : String
  error : String
deriving DecidableEq, Repr

/-- `LLMResponse`: content, tool calls and the advisory finished flag. -/
structure LLMResponse where
  content : String
  toolCalls : List ToolCall
  finished : Bool
deriving DecidableEq, Repr

/-- `TaskResult`: terminal value of one `ExecuteTask` invocation. -/
structure TaskResult where
  success : Bool
  finalContent : String
  conversation : List ConversationEntry
deriving DecidableEq, Repr

/-- A registered tool.  The Go `Tool` also carries a description and a JSON
parameter schema; those fields are only forwarded to providers and play no
role in the loop, so they are omitted.  `handler` models the Go
`ToolHandler func(ctx, arguments) (*ToolResult, error)`: `Except.error`
is a non-nil Go error (transport failure), `Except.ok` the result. -/
structure Tool where
  name : String
  handler : String → Except String ToolResult

/-- The `LLMProvider` interface: `Name()` and `GenerateResponse`.
`generate` receives the ordinal of the call (modelling the provider's
internal state evolving across calls) and the rendered prompt text;
`Except.error` models a non-nil transport error. -/
structure LLMProvider where
  name : String
  generate : Nat → String → Except String LLMResponse

/-- The `Agent` struct from `agent.go`. -/
structure Agent where
  provider : LLMProvider
  tools : List Tool

/-- `Agent.buildPrompt`: render the conversation into sequential
`Human:` / `Assistant:` / `Tool Result:` blocks. -/
def renderEntry (e : ConversationEntry) : String :=
  if e.type = "user" then "Human: " ++ e.content ++ "\n\n"
  else if e.type = "assistant" then "Assistant: " ++ e.content ++ "\n\n"
  else if e.type = "tool_result" then "Tool Result: " ++ e.content ++ "\n\n"
  else ""

/-- `Agent.buildPrompt` (the `strings.Builder` loop). -/
def buildPrompt (conversation : List ConversationEntry) : String :=
  String.join (conversation.map renderEntry)

/-- `Agent.executeTool`: linear scan for the named tool; an unregistered
name yields the Go error `tool not found: <name>`. -/
def executeTool (a : Agent) (toolCall : ToolCall) : Except String ToolResult :=
  match a.tools.find? (fun t => t.name == toolCall.name) with
  | some t => t.handler toolCall.arguments
  | none => Except.error ("tool not found: " ++ toolCall.name)

/-- The `tool_result` conversation entry appended for one tool call, per
the three branches in `ExecuteTask` (transport failure / tool-level error
/ success). -/
def toolResultEntry (a : Agent) (toolCall : ToolCall) : ConversationEntry :=
  match executeTool a toolCall with
  | Except.error err =>
    ⟨"tool_result", "Tool " ++ toolCall.name ++ " failed: " ++ err⟩
  | Except.ok result =>
    if result.error ≠ "" then
      ⟨"tool_result", "Tool " ++ toolCall.name ++ " error: " ++ result.error⟩
    else
      ⟨"tool_result", "Tool " ++ toolCall.name ++ " result: " ++ result.content⟩

/-- The nudge appended when a response has no tool calls and is not
finished. -/
def nudgeEntry : ConversationEntry :=
  ⟨"user", "Please complete the task or use the available tools to gather the information you need. If the task is complete, please indicate that you are finished."⟩

/-- The literal budget-exhaustion message. -/
def maxIterationsMessage : String :=
  "Task did not complete within maximum iterations"

/-- The `for i := 0; i < maxIterations; i++` loop of `ExecuteTask`,
by recursion on the remaining iteration budget.  Returns the Go return
value (`Except.error` models a non-nil error return) paired with the
number of provider calls performed. -/
def executeTaskLoop (a : Agent) :
    List ConversationEntry → Nat → Nat → Except String TaskResult × Nat
  | conversation, _, 0 =>
    (Except.ok ⟨false, maxIterationsMessage, conversation⟩, 0)
  | conversation, callIdx, fuel + 1 =>
    match a.provider.generate callIdx (buildPrompt conversation) with
    | Except.error e =>
      (Except.error ("failed to get LLM response: " ++ e), 1)
    | Except.ok response =>
      let conv2 := conversation ++ [⟨"assistant", response.content⟩]
      if response.toolCalls.isEmpty then
        if response.finished then
          (Except.ok ⟨true, response.content, conv2⟩, 1)
        else
          let r := executeTaskLoop a (conv2 ++ [nudgeEntry]) (callIdx + 1) fuel
          (r.1, r.2 + 1)
      else
        let r := executeTaskLoop a
          (conv2 ++ response.toolCalls.map (toolResultEntry a)) (callIdx + 1) fuel
        (r.1, r.2 + 1)

/-- The iteration budget: 15, raised to 20 when the provider name
contains `gemini` (case-insensitively). -/
def maxIterations (a : Agent) : Nat :=
  if goContains (goToLower a.provider.name) "gemini" then 20 else 15

/-- `Agent.ExecuteTask`: seed the conversation with the user prompt and
run the bounded loop.  Second component: number of provider calls. -/
def executeTask (a : Agent) (prompt : String) :
    Except String TaskResult × Nat :=
  executeTaskLoop a [⟨"user", prompt⟩] 0 (maxIterations a)

/-! ## Go `path/filepath` primitives (Unix rules)

`filepath.Clean` is specified by four lexical transformations (collapse
repeated separators, drop `.` elements, drop an inner `..` together with
the preceding non-`..` element, drop `..` elements at the root).  We
implement it by splitting on `/` and processing the elements against a
stack, which realizes exactly those transformations. -/

/-- Split a character list on `'/'` (like `strings.Split(s, "/")`),
accumulating the current element reversed. -/
def splitSlashAux : List Char → List Char → List (List Char)
  | [], acc => [acc.reverse]
  | c :: rest, acc =>
    if c = '/' then acc.reverse :: splitSlashAux rest []
    else splitSlashAux rest (c :: acc)

/-- Split on `'/'`. -/
def splitSlash (cs : List Char) : List (List Char) := splitSlashAux cs []

/-- Join path elements with `'/'`. -/
def joinComps : List (List Char) → List Char
  | [] => []
  | [c] => c
  | c :: rest => c ++ '/' :: joinComps rest

/-- The `..` path element. -/
def dotdot : List Char := ['.', '.']

/-- The element-processing core of `filepath.Clean`: walk the (already
`.`- and empty-free) elements left to right keeping a stack (top first).
A `..` pops a preceding non-`..` element; at the root it is dropped when
the path is rooted and kept otherwise. -/
def cleanSegs (rooted : Bool) : List (List Char) → List (List Char) → List (List Char)
  | stack, [] => stack.reverse
  | stack, c :: rest =>
    if c = dotdot then
      match stack with
      | [] =>
        if rooted then cleanSegs rooted [] rest
        else cleanSegs rooted [c] rest
      | top :: stk =>
        if top = dotdot then cleanSegs rooted (c :: (top :: stk)) rest
        else cleanSegs rooted stk rest
    else cleanSegs rooted (c :: stack) rest

/-- `filepath.Clean` (Unix).  `Clean("") = "."`; a rooted path keeps its
leading `/`; an emptied relative path becomes `"."`. -/
def goClean (s : String) : String :=
  match s.data with
  | [] => "."
  | c :: cs =>
    let rooted := c = '/'
    let comps := (splitSlash (c :: cs)).filter
      (fun x => decide (x ≠ [] ∧ x ≠ ['.']))
    let out := cleanSegs rooted [] comps
    if rooted then ⟨'/' :: joinComps out⟩
    else if out = [] then "." else ⟨joinComps out⟩

/-- `strings.Join` with a separator. -/
def joinStrings (sep : String) : List String → String
  | [] => ""
  | [e] => e
  | e :: rest => e ++ sep ++ joinStrings sep rest

/-- `filepath.Join(elem...)`: drop leading empty elements; if all are
empty return `""`, else `Clean` of the remaining elements joined by
`/`. -/
def goJoinList (elems : List String) : String :=
  match elems.dropWhile (fun e => e == "") with
  | [] => ""
  | e :: rest => goClean (joinStrings "/" (e :: rest))

/-- Binary `filepath.Join`. -/
def goJoin (a b : String) : String := goJoinList [a, b]

/-- Does the string start with `'/'`? (`filepath.Rel`'s slash test). -/
def isRootedStr (s : String) : Bool := s.data.head? == some '/'

/-- Elements of a cleaned path as seen by `filepath.Rel`'s element
scanner: `"/"` contributes the single empty element before its
separator; every other cleaned path splits on `/`. -/
def relComps (cs : List Char) : List (List Char) :=
  if cs = ['/'] then [[]] else splitSlash cs

/-- The elements of a cleaned base path after `filepath.Rel`'s
`if base == "." { base = "" }` conversion: `"."` has no elements. -/
def normComps (s : String) : List (List Char) :=
  if s = "." then [] else relComps s.data

/-- Strip the longest common element prefix (the two-pointer scan in
`filepath.Rel`), returning both remainders. -/
def stripCommon : List (List Char) → List (List Char) →
    List (List Char) × List (List Char)
  | b :: bs, t :: ts =>
    if b = t then stripCommon bs ts else (b :: bs, t :: ts)
  | bs, ts => (bs, ts)

/-- `filepath.Rel(basepath, targpath)` (Unix), element-level
transliteration of the Go implementation: clean both paths; equal paths
relate by `"."`; a rooted/relative mix is an error; otherwise strip the
common element prefix — a remaining leading `..` base element is an
error, remaining base elements each contribute a `..`, and the remaining
target elements are appended.  `none` models the Go error return. -/
def goRel (basepath targpath : String) : Option String :=
  let base := goClean basepath
  let targ := goClean targpath
  if targ = base then some "." else
  let baseConv := if base = "." then "" else base
  if (isRootedStr baseConv ≠ isRootedStr targ) then none else
  let p := stripCommon (normComps base) (relComps targ.data)
  if p.1.head? = some dotdot then none else
  if p.1 = [] then some ⟨joinComps p.2⟩
  else some ⟨joinComps (List.replicate p.1.length dotdot ++ p.2)⟩

/-- Position of the last `'/'`. -/
def lastSlashPos : List Char → Option Nat
  | [] => none
  | c :: rest =>
    match lastSlashPos rest with
    | some i => some (i + 1)
    | none => if c = '/' then some 0 else none

/-- `filepath.Dir` (Unix): everything up to and including the last
separator, cleaned; `"."` when there is no separator. -/
def goDir (s : String) : String :=
  match lastSlashPos s.data with
  | none => goClean ""
  | some i => goClean ⟨s.data.take (i + 1)⟩

/-- The sandbox escape check shared by the three tool handlers
(`tools.go`): relate the cleaned root to the cleaned candidate and deny
on a `Rel` error or a relative path with string prefix `".."`. -/
def pathEscapes (cleanRoot cleanPath : String) : Bool :=
  match goRel cleanRoot cleanPath with
  | none => true
  | some relPath => goHasPre relPath ".."

/-! ## Tool handlers (`tools.go`)

Filesystem effects are made explicit: each handler returns, along with
its `ToolResult`, the trace of filesystem operations it performed, and
read-type operations take the data they would observe as an oracle
argument.  JSON argument decoding (`json.Unmarshal` into each handler's
argument struct) is abstracted into an `Option` of the decoded fields;
`none` is a decode failure, which the handlers report as a `ToolResult`
error without touching the filesystem. -/

/-- A filesystem operation performed by a handler. -/
inductive FsOp where
  | readDir (path : String)
  | readFile (path : String)
  | mkdirAll (path : String)
  | writeFile (path : String) (content : String)
  | remove (path : String)
deriving DecidableEq, Repr

/-- One `os.DirEntry` as consumed by the listing loop: name, directory
flag, and the `Info()` size (`none` when `Info()` errors). -/
structure DirEntry where
  name : String
  isDir : Bool
  size : Option Int
deriving DecidableEq, Repr

/-- One line of the `list_directory` output. -/
def renderDirEntry (e : DirEntry) : String :=
  if e.isDir then "  " ++ e.name ++ "/ (directory)\n"
  else
    match e.size with
    | some n => "  " ++ e.name ++ " (file, " ++ toString n ++ " bytes)\n"
    | none => "  " ++ e.name ++ " (file)\n"

/-- The entry loop of `listDirectoryHandler`: render every entry except
the `docs` directory, which is hidden from the LLM. -/
def renderDirEntries : List DirEntry → String
  | [] => ""
  | e :: rest =>
    if e.name = "docs" then renderDirEntries rest
    else renderDirEntry e ++ renderDirEntries rest

/-- `listDirectoryHandler`: decode the path argument, join it to the
package root, deny on sandbox escape, else read and render the
directory.  `readDir` is the `os.ReadDir` oracle. -/
def listDirectoryHandler (packageRoot : String) (args : Option String)
    (readDir : String → Except String (List DirEntry)) :
    ToolResult × List FsOp :=
  match args with
  | none => (⟨"", "failed to parse arguments"⟩, [])
  | some path =>
    let fullPath := goJoin packageRoot path
    let cleanPath := goClean fullPath
    let cleanRoot := goClean packageRoot
    if pathEscapes cleanRoot cleanPath then
      (⟨"", "access denied: path outside package root"⟩, [])
    else
      match readDir fullPath with
      | Except.error e =>
        (⟨"", "failed to read directory: " ++ e⟩, [FsOp.readDir fullPath])
      | Except.ok entries =>
        (⟨"Contents of " ++ path ++ ":\n" ++ renderDirEntries entries, ""⟩,
         [FsOp.readDir fullPath])

/-- `readFileHandler`: decode the path argument, block the generated
`docs/` prefix, join to the package root, deny on sandbox escape, else
read the file.  `readF` is the `os.ReadFile` oracle. -/
def readFileHandler (packageRoot : String) (args : Option String)
    (readF : String → Except String String) : ToolResult × List FsOp :=
  match args with
  | none => (⟨"", "failed to parse arguments"⟩, [])
  | some path =>
    if goHasPre path "docs/" then
      (⟨"", "access denied: invalid path"⟩, [])
    else
      let fullPath := goJoin packageRoot path
      let cleanPath := goClean fullPath
      let cleanRoot := goClean packageRoot
      if pathEscapes cleanRoot cleanPath then
        (⟨"", "access denied: path outside package root"⟩, [])
      else
        match readF fullPath with
        | Except.error e =>
          (⟨"", "failed to read file: " ++ e⟩, [FsOp.readFile fullPath])
        | Except.ok content => (⟨content, ""⟩, [FsOp.readFile fullPath])

/-- `writeFileHandler`: decode path and content, join the path to the
package root, deny unless it resolves under the fixed
`<root>/_dev/build/docs` subdirectory, else create the parent directory
chain and write the file (full replacement). -/
def writeFileHandler (packageRoot : String)
    (args : Option (String × String)) : ToolResult × List FsOp :=
  match args with
  | none => (⟨"", "failed to parse arguments"⟩, [])
  | some (path, content) =>
    let fullPath := goJoin packageRoot path
    let allowedDir := goJoinList [packageRoot, "_dev", "build", "docs"]
    let cleanPath := goClean fullPath
    let cleanAllowed := goClean allowedDir
    if pathEscapes cleanAllowed cleanPath then
      (⟨"", "access denied: path outside allowed directory"⟩, [])
    else
      (⟨"Successfully wrote " ++ toString content.utf8ByteSize ++
          " bytes to " ++ path, ""⟩,
       [FsOp.mkdirAll (goDir fullPath), FsOp.writeFile fullPath content])

/-! ## Filesystem state

A filesystem is a map from paths to file contents; directories are
implicit.  Applying a handler's trace to a filesystem yields the
filesystem after the handler ran. -/

/-- Filesystem state: file contents by path. -/
def FS : Type := String → Option String

/-- Effect of one operation on the filesystem (reads and `MkdirAll`
leave the file map unchanged). -/
def applyOp (fs : FS) : FsOp → FS
  | FsOp.writeFile p c => fun q => if q = p then some c else fs q
  | FsOp.remove p => fun q => if q = p then none else fs q
  | _ => fs

/-- Effect of a trace, in order. -/
def applyOps (fs : FS) : List FsOp → FS
  | [] => fs
  | op :: rest => applyOps (applyOp fs op) rest

/-! ## Response classifier (`docagent.go`) -/

/-- The fixed error-phrase vocabulary of `isTaskResultError`. -/
def errorIndicators : List String :=
  ["I encountered an error",
   "I\x27m experiencing an error",
   "I cannot complete",
   "I\x27m unable to complete",
   "Something went wrong",
   "There was an error",
   "I\x27m having trouble",
   "I failed to",
   "Error occurred",
   "Task did not complete within maximum iterations"]

/-- The fixed token-limit phrase vocabulary of `isTokenLimitMessage`. -/
def tokenLimitIndicators : List String :=
  ["I reached the maximum response length",
   "maximum response length",
   "reached the token limit",
   "response is too long",
   "breaking this into smaller tasks",
   "due to length constraints",
   "response length limit",
   "token limit reached",
   "output limit exceeded",
   "maximum length exceeded"]

/-- `isTokenLimitMessage`: case-insensitive substring match against the
token-limit vocabulary. -/
def isTokenLimitMessage (content : String) : Bool :=
  tokenLimitIndicators.any
    (fun ind => goContains (goToLower content) (goToLower ind))

/-- The scan inside `hasRecentSuccessfulTools`, over the window of
entries already ordered newest first: the first `tool_result` entry
bearing a marker decides (success markers win within one entry); other
entries are skipped. -/
def scanToolResults : List ConversationEntry → Bool
  | [] => false
  | e :: rest =>
    if e.type = "tool_result" then
      let c := goToLower e.content
      if goContains c "✅ success" || goContains c "successfully wrote" ||
          goContains c "completed successfully" then true
      else if goContains c "❌ error" || goContains c "failed:" ||
          goContains c "access denied" then false
      else scanToolResults rest
    else scanToolResults rest

/-- `hasRecentSuccessfulTools`: scan the last (up to) five conversation
entries from newest to oldest. -/
def hasRecentSuccessfulTools (conversation : List ConversationEntry) : Bool :=
  scanToolResults (conversation.reverse.take 5)

/-- `isTaskResultError`: blank content is never an error (both Go
branches return `false` there); a token-limit message is never an error;
otherwise an error phrase must match, and a recent successful tool
result overrides the classification.  (A Go `nil` conversation and an
empty one behave identically — `hasRecentSuccessfulTools` is `false` on
an empty slice — so both are modelled by `[]`.) -/
def isTaskResultError (content : String)
    (conversation : List ConversationEntry) : Bool :=
  if goTrimSpace content = "" then false
  else if isTokenLimitMessage content then false
  else
    let contentLower := goToLower content
    let hasErrorIndicator := errorIndicators.any
      (fun ind => goContains contentLower (goToLower ind))
    if !hasErrorIndicator then false
    else if hasRecentSuccessfulTools conversation then false
    else true

/-- `isErrorResponse`: the context-free wrapper. -/
def isErrorResponse (content : String) : Bool :=
  isTaskResultError content []

/-! ## Session backup and restore (`docagent.go`) -/

/-- The fixed target path of the generated document:
`<root>/_dev/build/docs/README.md`. -/
def readmePath (packageRoot : String) : String :=
  goJoinList [packageRoot, "_dev", "build", "docs", "README.md"]

/-- `backupOriginalReadme`: capture the target's content at session
start; `none` records that no document existed. -/
def backupOriginalReadme (packageRoot : String) (fs : FS) : Option String :=
  fs (readmePath packageRoot)

/-- `restoreOriginalReadme`: overwrite the target with the backed-up
content, or remove the target when no document existed (the
`os.IsNotExist` case of `os.Remove` is a no-op on the file map). -/
def restoreOriginalReadme (packageRoot : String)
    (originalReadmeContent : Option String) : List FsOp :=
  match originalReadmeContent with
  | some content => [FsOp.writeFile (readmePath packageRoot) content]
  | none => [FsOp.remove (readmePath packageRoot)]

/-! ## Preserved-section extraction and validation (`docagent.go`) -/

/-- The `strings.Index` loop of `extractPreservedSections` for one
marker pair: repeatedly locate the start marker, then the end marker at
or after it, emit the full span including both markers, and continue
after the consumed span.  (With an empty end marker the Go loop would
never terminate; the two concrete marker pairs are non-empty, and the
model returns no spans in that degenerate case.) -/
def extractSpansAux (startM endM : List Char) (cs : List Char) :
    List (List Char) :=
  if hE : endM = [] then [] else
  match h1 : listIndexOfSub cs startM with
  | none => []
  | some i =>
    let rest := cs.drop i
    match h2 : listIndexOfSub rest endM with
    | none => []
    | some j =>
      rest.take (j + endM.length) ::
        extractSpansAux startM endM (rest.drop (j + endM.length))
termination_by cs.length
decreasing_by
  have hlen : 1 ≤ endM.length := by
    cases hEe : endM with
    | nil => exact absurd hEe hE
    | cons x xs => simp
  have hrest_ne : rest ≠ [] := by
    intro hnil
    rw [hnil] at h2
    simp only [listIndexOfSub, List.isEmpty_iff] at h2
    split at h2
    · exact hE (by assumption)
    · exact Option.noConfusion h2
  have hrest_le : rest.length ≤ cs.length := by
    simp only [rest, List.length_drop]
    omega
  have hrest_pos : 1 ≤ rest.length := by
    cases hr : rest with
    | nil => exact absurd hr hrest_ne
    | cons x xs => simp
  have hcs_pos : 1 ≤ cs.length := le_trans hrest_pos hrest_le
  simp only [List.length_drop]
  omega

/-- The two marker-pair vocabularies (start, end, name). -/
def markerPairs : List (String × String × String) :=
  [("<!-- HUMAN-EDITED START -->", "<!-- HUMAN-EDITED END -->",
    "HUMAN-EDITED"),
   ("<!-- PRESERVE START -->", "<!-- PRESERVE END -->", "PRESERVE")]

/-- Number the spans of one marker kind: keys `NAME-1`, `NAME-2`, … -/
def numberSpans (name : String) (spans : List (List Char)) :
    List (String × String) :=
  (spans.enumFrom 1).map (fun sc => (name ++ "-" ++ toString sc.1, ⟨sc.2⟩))

/-- `extractPreservedSections`: all numbered spans of both marker pairs.
(Go collects them into a map with these same unique keys; the model
keeps extraction order, which `validatePreservedSections` only folds
over.) -/
def extractPreservedSections (content : String) :
    List (String × String) :=
  markerPairs.foldl
    (fun acc m =>
      acc ++ numberSpans m.2.2 (extractSpansAux m.1.data m.2.1.data content.data))
    []

/-- `validatePreservedSections`: one warning per extracted span of the
original document that does not occur verbatim in the new document. -/
def validatePreservedSections (originalContent newContent : String) :
    List String :=
  (extractPreservedSections originalContent).filterMap
    (fun mc =>
      if goContains newContent mc.2 then none
      else some ("Human-edited section \x27" ++ mc.1 ++
        "\x27 was not preserved"))

/-! ## Spec-side definitions for the sandbox refinement claims -/

/-- Modelled from the spec: "the lexical normalization of
`join(root, p)` lies outside root".  A target lies inside a base path
if, after `Clean`-normalizing both, they are equally rooted and the
normalized elements of the base form a prefix of the normalized elements
of the target (`"."` normalizes to no elements).  This is the
containment notion of spec §4.1/§8; it is compared against the code's
`Rel`-and-`HasPrefix` check. -/
def resolvesInside (base targ : String) : Bool :=
  let b := goClean base
  let t := goClean targ
  (isRootedStr b == isRootedStr t) &&
    (normComps b).isPrefixOf (normComps t)

/-! # Theorems -/

theorem isPre_iff {α : Type} [BEq α] [LawfulBEq α] {l₁ l₂ : List α} :
    l₁.isPrefixOf l₂ = true ↔ l₁ <+: l₂ := by
  exact List.isPrefixOf_iff_prefix

theorem containsSub_infix_iff (n h : List Char) :
    listContainsSub h n = true ↔ n <:+: h := by
  induction h with
  | nil => simp [listContainsSub, List.isEmpty_iff, List.infix_nil]
  | cons c t ih =>
    simp [listContainsSub, Bool.or_eq_true, isPre_iff, ih, List.infix_cons_iff]

theorem goContains_infix_iff (s sub : String) :
    goContains s sub = true ↔ sub.data <:+: s.data :=
  containsSub_infix_iff _ _

theorem goContains_trans_sub {s a b : String} (h : goContains s a = true)
    (hab : goContains a b = true) : goContains s b = true :=
  (goContains_infix_iff _ _).mpr
    (((goContains_infix_iff _ _).mp hab).trans ((goContains_infix_iff _ _).mp h))

/-! ## C7: restore-on-cancel -/

/-- **C7.** On cancel, restoring over any later filesystem state brings
the target path back to exactly its session-start content: a pre-existing
document is restored byte-for-byte, and a document created during the
session is deleted. -/
theorem claim_C7 (packageRoot : String) (fs0 fs : FS) :
    applyOps fs
      (restoreOriginalReadme packageRoot (backupOriginalReadme packageRoot fs0))
      (readmePath packageRoot) = fs0 (readmePath packageRoot) := by
  unfold backupOriginalReadme restoreOriginalReadme
  cases h : fs0 (readmePath packageRoot) with
  | none => simp [applyOps, applyOp]
  | some c => simp [applyOps, applyOp]

/-! ## C8: invisibility of `docs/` to the read-type tools -/

/-- **C8.** The generated-artifact subpath is invisible: the
`list_directory` rendering is unchanged by removing `docs` entries (they
contribute nothing to the listing), and `read_file` denies every path
under the `docs/` prefix with an access-denied error, touching no
file. -/
theorem claim_C8 :
    (∀ entries : List DirEntry,
      renderDirEntries entries =
        renderDirEntries (entries.filter (fun e => decide (e.name ≠ "docs")))) ∧
    (∀ (packageRoot path : String) (readF : String → Except String String),
      goHasPre path "docs/" = true →
      readFileHandler packageRoot (some path) readF =
        (⟨"", "access denied: invalid path"⟩, [])) := by
  constructor
  · intro entries
    induction entries with
    | nil => rfl
    | cons e rest ih =>
      by_cases h : e.name = "docs"
      · simp [renderDirEntries, h, List.filter_cons, ih]
      · simp [renderDirEntries, h, List.filter_cons, ih]
  · intro packageRoot path readF h
    simp [readFileHandler, h]

/-- Witness for C8 at a concrete docs-prefixed path. -/
theorem claim_C8_witness :
    readFileHandler "/pkg" (some "docs/README.md") (fun _ => Except.ok "zz") =
      (⟨"", "access denied: invalid path"⟩, []) :=
  claim_C8.2 "/pkg" "docs/README.md" (fun _ => Except.ok "zz") (by decide)

/-! ## C9: reflexivity of preserved-section validation -/

theorem extractSpansAux_infix_mem (startM endM : List Char) :
    ∀ n (cs : List Char), cs.length = n →
      ∀ sp ∈ extractSpansAux startM endM cs, sp <:+: cs := by
  intro n
  induction n using Nat.strong_induction_on with
  | _ n ih =>
    intro cs hlen sp hsp
    rw [extractSpansAux] at hsp
    split at hsp
    · simp at hsp
    · rename_i hE
      split at hsp
      · simp at hsp
      · rename_i i h1
        dsimp only at hsp
        split at hsp
        · simp at hsp
        · rename_i j h2
          simp only [List.mem_cons] at hsp
          have hEl : 1 ≤ endM.length := by
            cases hEe : endM with
            | nil => exact absurd hEe hE
            | cons x xs => simp
          have hrest_ne : cs.drop i ≠ [] := by
            intro hnil
            rw [hnil] at h2
            simp only [listIndexOfSub, List.isEmpty_iff] at h2
            split at h2
            · exact hE (by assumption)
            · exact Option.noConfusion h2
          rcases hsp with rfl | hsp
          · exact (List.take_prefix _ _).isInfix.trans
              (List.drop_suffix i cs).isInfix
          · have hlt : ((cs.drop i).drop (j + endM.length)).length < n := by
              have h1le : (cs.drop i).length ≤ cs.length := by
                simp only [List.length_drop]; omega
              have hpos : 1 ≤ (cs.drop i).length := by
                cases hr : cs.drop i with
                | nil => exact absurd hr hrest_ne
                | cons x xs => simp
              simp only [List.length_drop]
              simp only [List.length_drop] at h1le hpos
              omega
            have := ih _ hlt _ rfl sp hsp
            exact this.trans ((List.drop_suffix _ _).isInfix.trans
              (List.drop_suffix i cs).isInfix)

theorem extractPreserved_infix_mem (D : String) :
    ∀ mc ∈ extractPreservedSections D, (mc.2).data <:+: D.data := by
  intro mc hmc
  have hspan : ∀ (st en nm : String) (mc : String × String),
      mc ∈ numberSpans nm (extractSpansAux st.data en.data D.data) →
      (mc.2).data <:+: D.data := by
    intro st en nm mc hmc
    unfold numberSpans at hmc
    obtain ⟨a, ha, rfl⟩ := List.mem_map.mp hmc
    have hmem : a.2 ∈ extractSpansAux st.data en.data D.data := by
      have := List.enumFrom_map_snd 1 (extractSpansAux st.data en.data D.data)
      have : a.2 ∈ (List.enumFrom 1 (extractSpansAux st.data en.data D.data)).map Prod.snd :=
        List.mem_map_of_mem Prod.snd ha
      rwa [List.enumFrom_map_snd] at this
    exact extractSpansAux_infix_mem _ _ _ _ rfl _ hmem
  unfold extractPreservedSections at hmc
  simp only [markerPairs, List.foldl_cons, List.foldl_nil, List.nil_append,
    List.mem_append] at hmc
  rcases hmc with hmc | hmc
  · exact hspan _ _ _ _ hmc
  · exact hspan _ _ _ _ hmc

/-- **C9.** Validating any document against itself yields no warnings:
every span extracted from `D` occurs verbatim in `D`. -/
theorem claim_C9 (D : String) : validatePreservedSections D D = [] := by
  rw [validatePreservedSections, List.filterMap_eq_nil_iff]
  intro mc hmc
  have h := extractPreserved_infix_mem D mc hmc
  have hc : goContains D mc.2 = true := (goContains_infix_iff _ _).mpr h
  simp [hc]

/-! ## C5: token-limit detection takes priority over error detection -/

/-- **C5.** Any response text containing (case-insensitively) the phrase
"reached the maximum response length" is classified as a token-limit
message, and `isTaskResultError` is `false` on it for every conversation
— even when the text also contains an error phrase. -/
theorem claim_C5 (content : String) (conversation : List ConversationEntry)
    (h : goContains (goToLower content)
      "reached the maximum response length" = true) :
    isTokenLimitMessage content = true ∧
      isTaskResultError content conversation = false := by
  have hsub : goContains (goToLower content)
      (goToLower "maximum response length") = true := by
    refine goContains_trans_sub h ?_
    decide
  have htok : isTokenLimitMessage content = true := by
    unfold isTokenLimitMessage
    refine List.any_eq_true.mpr ⟨"maximum response length", ?_, hsub⟩
    simp [tokenLimitIndicators]
  refine ⟨htok, ?_⟩
  unfold isTaskResultError
  by_cases htrim : goTrimSpace content = ""
  · simp [htrim]
  · simp [htrim, htok]

/-- Witness for C5: a concrete text containing both a token-limit phrase
and an error phrase. -/
theorem claim_C5_witness :
    isTokenLimitMessage
        "I failed to finish: I reached the maximum response length" = true ∧
      isTaskResultError
        "I failed to finish: I reached the maximum response length" [] = false :=
  claim_C5 "I failed to finish: I reached the maximum response length" []
    (by decide)

/-! ## C6: error phrase with recent-success override -/

theorem trimSpace_all_white {s : String} (h : goTrimSpace s = "") :
    ∀ c ∈ s.data, c.isWhitespace = true := by
  intro c hc
  have hdata := congrArg String.data h
  simp only [goTrimSpace, String.data] at hdata
  have h1 : (s.data.dropWhile Char.isWhitespace).reverse.dropWhile
      Char.isWhitespace = [] := by
    have := congrArg List.reverse hdata
    simpa using this
  have h2 : ∀ x ∈ (s.data.dropWhile Char.isWhitespace).reverse,
      Char.isWhitespace x = true := List.dropWhile_eq_nil_iff.mp h1
  have h3 : ∀ x ∈ s.data.dropWhile Char.isWhitespace,
      Char.isWhitespace x = true := by
    intro x hx
    exact h2 x (List.mem_reverse.mpr hx)
  have hsplit := List.takeWhile_append_dropWhile Char.isWhitespace s.data
  rw [← hsplit] at hc
  rcases List.mem_append.mp hc with hc | hc
  · exact List.mem_takeWhile_imp hc
  · exact h3 c hc

theorem white_toLower {c : Char} (h : c.isWhitespace = true) :
    Char.toLower c = c := by
  simp only [Char.isWhitespace, Bool.or_eq_true, decide_eq_true_iff] at h
  rcases h with ((h | h) | h) | h <;> subst h <;> decide

theorem contains_ifailed_trim {content : String}
    (h : goContains (goToLower content) "i failed to" = true) :
    goTrimSpace content ≠ "" := by
  intro htrim
  have hw := trimSpace_all_white htrim
  have hinf : ("i failed to" : String).data <:+: (goToLower content).data :=
    (goContains_infix_iff _ _).mp h
  have hmem : 'i' ∈ (goToLower content).data :=
    List.Sublist.mem (by decide) hinf.sublist
  have hmem2 : 'i' ∈ content.data.map Char.toLower := hmem
  obtain ⟨c, hc, hcl⟩ := List.mem_map.mp hmem2
  have hcw := hw c hc
  rw [white_toLower hcw] at hcl
  subst hcl
  simp at hcw

/-- **C6 (amended).** For every response text containing
(case-insensitively) the error phrase "I failed to" *that does not also
match a token-limit phrase*, `isTaskResultError` classifies it as an
error exactly when the recent-successful-tools override does not fire:
a tool-result success marker more recent than any failure marker in the
last five transcript entries flips the classification to non-error,
and a more recent failure marker leaves it as an error. -/
theorem claim_C6 (content : String) (conversation : List ConversationEntry)
    (h : goContains (goToLower content) "i failed to" = true)
    (hnot : isTokenLimitMessage content = false) :
    isTaskResultError content conversation =
      !hasRecentSuccessfulTools conversation := by
  have htrim := contains_ifailed_trim h
  have herr : errorIndicators.any
      (fun ind => goContains (goToLower content) (goToLower ind)) = true := by
    refine List.any_eq_true.mpr ⟨"I failed to", ?_, ?_⟩
    · simp [errorIndicators]
    · have heq : goToLower "I failed to" = "i failed to" := by decide
      rw [heq]; exact h
  unfold isTaskResultError
  cases hrec : hasRecentSuccessfulTools conversation <;>
    simp [htrim, hnot, herr, hrec]

/-- Counterexample to C6 as stated: a text containing the error phrase
"I failed to" with no transcript override is nevertheless classified as
non-error, because it also contains the token-limit phrase "token limit
reached" and token-limit detection runs first. -/
theorem claim_C6_counterexample :
    goContains (goToLower "I failed to finish, token limit reached")
        "i failed to" = true ∧
      hasRecentSuccessfulTools [] = false ∧
      isTaskResultError "I failed to finish, token limit reached" [] = false := by
  refine ⟨by decide, by decide, by decide⟩

/-- Witness for C6 (amended) at a concrete text and transcript with a
recent success marker. -/
theorem claim_C6_witness :
    isTaskResultError "I failed to write the file"
        [⟨"tool_result", "Tool write_file result: Successfully wrote 3 bytes to x"⟩] =
      !hasRecentSuccessfulTools
        [⟨"tool_result", "Tool write_file result: Successfully wrote 3 bytes to x"⟩] :=
  claim_C6 "I failed to write the file"
    [⟨"tool_result", "Tool write_file result: Successfully wrote 3 bytes to x"⟩]
    (by decide) (by decide)

/-! ## C1: iteration bound and budget exhaustion -/

theorem executeTaskLoop_calls_le (a : Agent) :
    ∀ (fuel : Nat) (conv : List ConversationEntry) (k : Nat),
      (executeTaskLoop a conv k fuel).2 ≤ fuel := by
  intro fuel
  induction fuel with
  | zero => intro conv k; simp [executeTaskLoop]
  | succ fuel ih =>
    intro conv k
    rw [executeTaskLoop]
    cases hg : a.provider.generate k (buildPrompt conv) with
    | error e => simp
    | ok response =>
      dsimp only
      split
      · split
        · exact Nat.succ_le_succ (Nat.zero_le _)
        · exact Nat.succ_le_succ (ih _ _)
      · exact Nat.succ_le_succ (ih _ _)

theorem executeTaskLoop_stuck (a : Agent)
    (hp : ∀ n p, ∃ c, a.provider.generate n p =
      Except.ok ⟨c, [], false⟩) :
    ∀ (fuel : Nat) (conv : List ConversationEntry) (k : Nat),
      ∃ conv2, executeTaskLoop a conv k fuel =
        (Except.ok ⟨false, maxIterationsMessage, conv2⟩, fuel) := by
  intro fuel
  induction fuel with
  | zero => intro conv k; exact ⟨conv, rfl⟩
  | succ fuel ih =>
    intro conv k
    obtain ⟨c, hc⟩ := hp k (buildPrompt conv)
    obtain ⟨conv2, hrec⟩ :=
      ih (conv ++ [⟨"assistant", c⟩] ++ [nudgeEntry]) (k + 1)
    refine ⟨conv2, ?_⟩
    rw [executeTaskLoop, hc]
    dsimp only
    rw [hrec]
    simp

/-- **C1.** `ExecuteTask` makes at most `maxIterations` provider calls
for every provider and prompt; and a provider that answers every call
with `finished = false` and no tool calls drives it to a non-error
return with `success = false` and the literal final content
`"Task did not complete within maximum iterations"` after exactly
`maxIterations` provider calls. -/
theorem claim_C1 :
    (∀ (a : Agent) (prompt : String),
      (executeTask a prompt).2 ≤ maxIterations a) ∧
    (∀ (a : Agent) (prompt : String),
      (∀ n p, ∃ c, a.provider.generate n p = Except.ok ⟨c, [], false⟩) →
      (executeTask a prompt).2 = maxIterations a ∧
        ∃ conv, (executeTask a prompt).1 =
          Except.ok ⟨false, maxIterationsMessage, conv⟩) := by
  constructor
  · intro a prompt
    exact executeTaskLoop_calls_le a (maxIterations a) _ 0
  · intro a prompt hp
    obtain ⟨conv2, h⟩ :=
      executeTaskLoop_stuck a hp (maxIterations a) [⟨"user", prompt⟩] 0
    unfold executeTask
    rw [h]
    exact ⟨rfl, conv2, rfl⟩

/-- Witness for C1: a concrete never-finishing provider is exhausted
after exactly its 15-call budget. -/
theorem claim_C1_witness :
    (executeTask ⟨⟨"testprov", fun _ _ => Except.ok ⟨"", [], false⟩⟩, []⟩
        "do the task").2 =
      maxIterations ⟨⟨"testprov", fun _ _ => Except.ok ⟨"", [], false⟩⟩, []⟩ ∧
    ∃ conv,
      (executeTask ⟨⟨"testprov", fun _ _ => Except.ok ⟨"", [], false⟩⟩, []⟩
          "do the task").1 =
        Except.ok ⟨false, maxIterationsMessage, conv⟩ :=
  claim_C1.2 ⟨⟨"testprov", fun _ _ => Except.ok ⟨"", [], false⟩⟩, []⟩
    "do the task" (fun _ _ => ⟨"", rfl⟩)

/-! ## C4: tool calls take precedence over the finished flag -/

theorem executeTaskLoop_success_source (a : Agent) :
    ∀ (fuel : Nat) (conv : List ConversationEntry) (k : Nat)
      (r : TaskResult),
      (executeTaskLoop a conv k fuel).1 = Except.ok r → r.success = true →
      ∃ i p resp, a.provider.generate i p = Except.ok resp ∧
        resp.finished = true ∧ resp.toolCalls = [] ∧
        resp.content = r.finalContent := by
  intro fuel
  induction fuel with
  | zero =>
    intro conv k r hr hs
    simp only [executeTaskLoop] at hr
    cases hr
    simp at hs
  | succ fuel ih =>
    intro conv k r hr hs
    rw [executeTaskLoop] at hr
    cases hg : a.provider.generate k (buildPrompt conv) with
    | error e => rw [hg] at hr; simp at hr
    | ok response =>
      rw [hg] at hr
      dsimp only at hr
      split at hr
      · rename_i hempty
        split at hr
        · rename_i hfin
          cases hr
          exact ⟨k, buildPrompt conv, response, hg, hfin,
            List.isEmpty_iff.mp hempty, rfl⟩
        · exact ih _ _ _ hr hs
      · exact ih _ _ _ hr hs

/-- **C4.** A response with tool calls never terminates the task on that
iteration, even with `finished = true`: the loop appends the assistant
entry followed by exactly one `tool_result` entry per tool call, in the
order returned, and recurses; and `ExecuteTask` returns `success = true`
only from a response with `finished = true` and no tool calls (whose
content becomes the final content). -/
theorem claim_C4 :
    (∀ (a : Agent) (conv : List ConversationEntry) (k fuel : Nat)
      (resp : LLMResponse),
      a.provider.generate k (buildPrompt conv) = Except.ok resp →
      resp.toolCalls ≠ [] →
      executeTaskLoop a conv k (fuel + 1) =
        ((executeTaskLoop a
            ((conv ++ [⟨"assistant", resp.content⟩]) ++
              resp.toolCalls.map (toolResultEntry a)) (k + 1) fuel).1,
          (executeTaskLoop a
            ((conv ++ [⟨"assistant", resp.content⟩]) ++
              resp.toolCalls.map (toolResultEntry a)) (k + 1) fuel).2 + 1)) ∧
    (∀ (a : Agent) (prompt : String) (r : TaskResult),
      (executeTask a prompt).1 = Except.ok r → r.success = true →
      ∃ i p resp, a.provider.generate i p = Except.ok resp ∧
        resp.finished = true ∧ resp.toolCalls = [] ∧
        resp.content = r.finalContent) := by
  constructor
  · intro a conv k fuel resp hg hne
    have hempty : resp.toolCalls.isEmpty = false :=
      List.isEmpty_eq_false.mpr hne
    rw [executeTaskLoop, hg]
    simp [hempty]
  · intro a prompt r hr hs
    exact executeTaskLoop_success_source a (maxIterations a) _ 0 r hr hs

/-- Witness for C4: both conjuncts at concrete inputs — a one-tool-call
response with `finished = true` steps into the recursion, and an
immediately-finished provider yields a success traced to a
finished/no-tool-calls response. -/
theorem claim_C4_witness :
    (executeTaskLoop ⟨⟨"p", fun _ _ => Except.ok ⟨"c", [⟨"1", "t", "{}"⟩], true⟩⟩, []⟩
        [⟨"user", "go"⟩] 0 (0 + 1) =
      ((executeTaskLoop ⟨⟨"p", fun _ _ => Except.ok ⟨"c", [⟨"1", "t", "{}"⟩], true⟩⟩, []⟩
          (([⟨"user", "go"⟩] ++ [⟨"assistant", "c"⟩]) ++
            [⟨"1", "t", "{}"⟩].map
              (toolResultEntry ⟨⟨"p", fun _ _ => Except.ok ⟨"c", [⟨"1", "t", "{}"⟩], true⟩⟩, []⟩))
          (0 + 1) 0).1,
        (executeTaskLoop ⟨⟨"p", fun _ _ => Except.ok ⟨"c", [⟨"1", "t", "{}"⟩], true⟩⟩, []⟩
          (([⟨"user", "go"⟩] ++ [⟨"assistant", "c"⟩]) ++
            [⟨"1", "t", "{}"⟩].map
              (toolResultEntry ⟨⟨"p", fun _ _ => Except.ok ⟨"c", [⟨"1", "t", "{}"⟩], true⟩⟩, []⟩))
          (0 + 1) 0).2 + 1)) ∧
    ∃ i p resp,
      (⟨⟨"q", fun _ _ => Except.ok ⟨"done", [], true⟩⟩, []⟩ : Agent).provider.generate i p =
          Except.ok resp ∧
        resp.finished = true ∧ resp.toolCalls = [] ∧
        resp.content = (⟨true, "done", [⟨"user", "go"⟩, ⟨"assistant", "done"⟩]⟩ :
          TaskResult).finalContent := by
  constructor
  · exact claim_C4.1 ⟨⟨"p", fun _ _ => Except.ok ⟨"c", [⟨"1", "t", "{}"⟩], true⟩⟩, []⟩
      [⟨"user", "go"⟩] 0 0 ⟨"c", [⟨"1", "t", "{}"⟩], true⟩ rfl (by decide)
  · exact claim_C4.2 ⟨⟨"q", fun _ _ => Except.ok ⟨"done", [], true⟩⟩, []⟩ "go"
      ⟨true, "done", [⟨"user", "go"⟩, ⟨"assistant", "done"⟩]⟩ rfl rfl

/-! ## C10: unknown tool names are folded into the transcript -/

theorem executeTaskLoop_error_source (a : Agent) :
    ∀ (fuel : Nat) (conv : List ConversationEntry) (k : Nat) (e : String),
      (executeTaskLoop a conv k fuel).1 = Except.error e →
      ∃ i p e0, a.provider.generate i p = Except.error e0 ∧
        e = "failed to get LLM response: " ++ e0 := by
  intro fuel
  induction fuel with
  | zero =>
    intro conv k e hr
    simp [executeTaskLoop] at hr
  | succ fuel ih =>
    intro conv k e hr
    rw [executeTaskLoop] at hr
    cases hg : a.provider.generate k (buildPrompt conv) with
    | error e0 =>
      rw [hg] at hr
      dsimp only at hr
      cases hr
      exact ⟨k, buildPrompt conv, e0, hg, rfl⟩
    | ok response =>
      rw [hg] at hr
      dsimp only at hr
      split at hr
      · split at hr
        · simp at hr
        · exact ih _ _ _ hr
      · exact ih _ _ _ hr

/-- **C10.** A tool call whose name matches no registered tool does not
abort the task: its `tool_result` transcript entry is the literal
`Tool <name> failed: tool not found: <name>` (and the loop continues);
the only source of a non-nil `ExecuteTask` error is a provider transport
failure. -/
theorem claim_C10 :
    (∀ (a : Agent) (tc : ToolCall),
      (∀ t ∈ a.tools, t.name ≠ tc.name) →
      toolResultEntry a tc =
        ⟨"tool_result",
          "Tool " ++ tc.name ++ " failed: " ++ ("tool not found: " ++ tc.name)⟩) ∧
    (∀ (a : Agent) (prompt e : String),
      (executeTask a prompt).1 = Except.error e →
      ∃ i p e0, a.provider.generate i p = Except.error e0 ∧
        e = "failed to get LLM response: " ++ e0) := by
  constructor
  · intro a tc h
    have hfind : a.tools.find? (fun t => t.name == tc.name) = none := by
      rw [List.find?_eq_none]
      intro t ht
      simp only [beq_iff_eq]
      exact h t ht
    unfold toolResultEntry executeTool
    rw [hfind]
  · intro a prompt e hr
    exact executeTaskLoop_error_source a (maxIterations a) _ 0 e hr

/-- Witness for C10: an agent with no registered tools produces the
`tool not found` transcript entry, and a concrete transport failure is
the source of the only error return. -/
theorem claim_C10_witness :
    toolResultEntry ⟨⟨"p", fun _ _ => Except.ok ⟨"", [], true⟩⟩, []⟩
        ⟨"1", "mystery", "{}"⟩ =
      ⟨"tool_result", "Tool mystery failed: tool not found: mystery"⟩ ∧
    ∃ i p e0,
      (⟨⟨"p", fun _ _ => Except.error "boom"⟩, []⟩ : Agent).provider.generate i p =
          Except.error e0 ∧
        "failed to get LLM response: boom" =
          "failed to get LLM response: " ++ e0 := by
  constructor
  · exact claim_C10.1 ⟨⟨"p", fun _ _ => Except.ok ⟨"", [], true⟩⟩, []⟩
      ⟨"1", "mystery", "{}"⟩ (by intro t ht; simp at ht)
  · exact claim_C10.2 ⟨⟨"p", fun _ _ => Except.error "boom"⟩, []⟩ "go"
      "failed to get LLM response: boom" rfl

/-! ## Path lemmas: splitting and joining -/

theorem splitSlashAux_ne_nil : ∀ (cs acc : List Char),
    splitSlashAux cs acc ≠ [] := by
  intro cs
  induction cs with
  | nil => intro acc; simp [splitSlashAux]
  | cons c rest ih =>
    intro acc
    rw [splitSlashAux]
    split
    · simp
    · exact ih _

theorem relComps_ne_nil (cs : List Char) : relComps cs ≠ [] := by
  unfold relComps
  split
  · simp
  · exact splitSlashAux_ne_nil _ _

theorem splitSlashAux_no_slash : ∀ (cs acc : List Char),
    (∀ ch ∈ acc, ch ≠ '/') →
    ∀ x ∈ splitSlashAux cs acc, '/' ∉ x := by
  intro cs
  induction cs with
  | nil =>
    intro acc hacc x hx
    simp only [splitSlashAux, List.mem_singleton] at hx
    subst hx
    intro hmem
    exact hacc '/' (List.mem_reverse.mp hmem) rfl
  | cons c rest ih =>
    intro acc hacc x hx
    rw [splitSlashAux] at hx
    split at hx
    · rcases List.mem_cons.mp hx with rfl | hx
      · intro hmem
        exact hacc '/' (List.mem_reverse.mp hmem) rfl
      · exact ih [] (by simp) x hx
    · rename_i hc
      refine ih (c :: acc) ?_ x hx
      intro ch hch
      rcases List.mem_cons.mp hch with rfl | hch
      · exact hc
      · exact hacc ch hch

theorem splitSlashAux_append : ∀ (a b acc : List Char), '/' ∉ a →
    splitSlashAux (a ++ b) acc = splitSlashAux b (a.reverse ++ acc) := by
  intro a
  induction a with
  | nil => intro b acc _; simp
  | cons c a' ih =>
    intro b acc ha
    have hc : c ≠ '/' := by
      intro h; exact ha (h ▸ List.mem_cons_self c a')
    rw [List.cons_append, splitSlashAux, if_neg (fun h => hc h)]
    rw [ih b (c :: acc) (fun h => ha (List.mem_cons_of_mem c h))]
    simp

theorem splitSlash_single (x : List Char) (hx : '/' ∉ x) :
    splitSlash x = [x] := by
  unfold splitSlash
  have := splitSlashAux_append x [] [] hx
  rw [List.append_nil] at this
  rw [this]
  simp [splitSlashAux]

theorem splitSlashAux_singleton : ∀ (cs acc x : List Char),
    splitSlashAux cs acc = [x] → x = acc.reverse ++ cs := by
  intro cs
  induction cs with
  | nil =>
    intro acc x h
    simp only [splitSlashAux, List.cons.injEq] at h
    simp [← h.1]
  | cons c rest ih =>
    intro acc x h
    rw [splitSlashAux] at h
    split at h
    · rename_i hc
      simp only [List.cons.injEq] at h
      exact absurd h.2 (splitSlashAux_ne_nil _ _)
    · rename_i hc
      have := ih (c :: acc) x h
      simpa using this

theorem splitSlash_eq_singleton {cs x : List Char}
    (h : splitSlash cs = [x]) : cs = x := by
  have := splitSlashAux_singleton cs [] x h
  simpa using this.symm

theorem splitSlash_joinComps : ∀ (xs : List (List Char)), xs ≠ [] →
    (∀ x ∈ xs, '/' ∉ x) → splitSlash (joinComps xs) = xs := by
  intro xs
  induction xs with
  | nil => intro h; exact absurd rfl h
  | cons x rest ih =>
    intro _ hx
    cases rest with
    | nil =>
      rw [joinComps]
      exact splitSlash_single x (hx x (by simp))
    | cons y rest' =>
      rw [joinComps]
      unfold splitSlash
      rw [splitSlashAux_append x ('/' :: joinComps (y :: rest')) []
        (hx x (by simp))]
      rw [splitSlashAux, if_pos rfl]
      have h2 : splitSlashAux (joinComps (y :: rest')) [] = y :: rest' :=
        ih (List.cons_ne_nil y rest')
          (fun z hz => hx z (List.mem_cons_of_mem x hz))
      rw [h2]
      simp
      exact List.cons_ne_nil y rest'

theorem joinComps_dotdot_cons (rest : List (List Char)) :
    ∃ tail, joinComps (dotdot :: rest) = '.' :: '.' :: tail := by
  cases rest with
  | nil => exact ⟨[], rfl⟩
  | cons y rest' => exact ⟨'/' :: joinComps (y :: rest'), rfl⟩

/-! ## Path lemmas: `cleanSegs` -/

theorem cleanSegs_nil (rooted : Bool) (stack : List (List Char)) :
    cleanSegs rooted stack [] = stack.reverse := rfl

theorem cleanSegs_push (rooted : Bool) (c : List Char)
    (stack rest : List (List Char)) (hc : c ≠ dotdot) :
    cleanSegs rooted stack (c :: rest) = cleanSegs rooted (c :: stack) rest := by
  rw [cleanSegs.eq_def]
  dsimp only
  rw [if_neg hc]

theorem cleanSegs_dd_nil (rooted : Bool) (rest : List (List Char)) :
    cleanSegs rooted [] (dotdot :: rest) =
      if rooted then cleanSegs rooted [] rest
      else cleanSegs rooted [dotdot] rest := by
  rw [cleanSegs.eq_def]
  dsimp only
  rw [if_pos rfl]

theorem cleanSegs_dd_cons (rooted : Bool) (top : List Char)
    (stk rest : List (List Char)) :
    cleanSegs rooted (top :: stk) (dotdot :: rest) =
      if top = dotdot then cleanSegs rooted (dotdot :: (top :: stk)) rest
      else cleanSegs rooted stk rest := by
  rw [cleanSegs.eq_def]
  dsimp only
  rw [if_pos rfl]

theorem cleanSegs_no_dotdot (rooted : Bool) :
    ∀ (comps stack : List (List Char)), (∀ c ∈ comps, c ≠ dotdot) →
      cleanSegs rooted stack comps = stack.reverse ++ comps := by
  intro comps
  induction comps with
  | nil => intro stack _; simp [cleanSegs_nil]
  | cons c rest ih =>
    intro stack h
    rw [cleanSegs_push rooted c stack rest (h c (by simp))]
    rw [ih (c :: stack) (fun x hx => h x (List.mem_cons_of_mem c hx))]
    simp

theorem cleanSegs_dotdots : ∀ (k j : Nat) (rest : List (List Char)),
    (∀ c ∈ rest, c ≠ dotdot) →
    cleanSegs false (List.replicate j dotdot)
      (List.replicate k dotdot ++ rest) =
      List.replicate (j + k) dotdot ++ rest := by
  intro k
  induction k with
  | zero =>
    intro j rest h
    simp only [List.replicate, List.nil_append, Nat.add_zero]
    rw [cleanSegs_no_dotdot false rest _ h]
    simp [List.reverse_replicate]
  | succ k ih =>
    intro j rest h
    rw [List.replicate_succ, List.cons_append]
    cases j with
    | zero =>
      simp only [List.replicate_zero]
      rw [cleanSegs_dd_nil, if_neg (by simp)]
      have h1 : [dotdot] = List.replicate 1 dotdot := rfl
      rw [h1, ih 1 rest h, show (1 : Nat) + k = 0 + (k + 1) from by omega]
    | succ j' =>
      rw [List.replicate_succ, cleanSegs_dd_cons, if_pos rfl]
      have h2 : dotdot :: (dotdot :: List.replicate j' dotdot) =
          List.replicate (j' + 2) dotdot := by
        rw [show j' + 2 = (j' + 1) + 1 from rfl, List.replicate_succ,
          List.replicate_succ]
      rw [h2, ih (j' + 2) rest h,
        show j' + 2 + k = j' + 1 + (k + 1) from by omega]

theorem cleanSegs_spec (rooted : Bool) :
    ∀ (comps pre : List (List Char)) (k : Nat),
      (∀ c ∈ comps, c ≠ [] ∧ c ≠ ['.'] ∧ '/' ∉ c) →
      (∀ c ∈ pre, (c ≠ [] ∧ c ≠ ['.'] ∧ '/' ∉ c) ∧ c ≠ dotdot) →
      (rooted = true → k = 0) →
      ∃ k2 rest2,
        cleanSegs rooted (pre ++ List.replicate k dotdot) comps =
          List.replicate k2 dotdot ++ rest2 ∧
        (∀ c ∈ rest2, (c ≠ [] ∧ c ≠ ['.'] ∧ '/' ∉ c) ∧ c ≠ dotdot) ∧
        (rooted = true → k2 = 0) := by
  intro comps
  induction comps with
  | nil =>
    intro pre k hcomps hpre hk
    refine ⟨k, pre.reverse, ?_, ?_, hk⟩
    · rw [cleanSegs_nil]
      simp [List.reverse_append, List.reverse_replicate]
    · intro c hc
      exact hpre c (List.mem_reverse.mp hc)
  | cons c restc ih =>
    intro pre k hcomps hpre hk
    have hcgood := hcomps c (by simp)
    have htail : ∀ x ∈ restc, x ≠ [] ∧ x ≠ ['.'] ∧ '/' ∉ x :=
      fun x hx => hcomps x (List.mem_cons_of_mem c hx)
    by_cases hc : c = dotdot
    · subst hc
      cases pre with
      | cons ph pt =>
        rw [List.cons_append, cleanSegs_dd_cons,
          if_neg (hpre ph (by simp)).2]
        exact ih pt k htail
          (fun x hx => hpre x (List.mem_cons_of_mem ph hx)) hk
      | nil =>
        cases k with
        | zero =>
          simp only [List.nil_append, List.replicate]
          rw [cleanSegs_dd_nil]
          by_cases hr : rooted = true
          · rw [if_pos hr]
            have := ih [] 0 htail (by simp) hk
            simpa using this
          · rw [if_neg hr]
            have := ih [] 1 htail (by simp) (fun h => absurd h hr)
            simpa [List.replicate] using this
        | succ k' =>
          simp only [List.nil_append, List.replicate_succ]
          rw [cleanSegs_dd_cons, if_pos rfl]
          have h2 : dotdot :: (dotdot :: List.replicate k' dotdot) =
              List.replicate (k' + 2) dotdot := by
            rw [show k' + 2 = (k' + 1) + 1 from rfl, List.replicate_succ,
              List.replicate_succ]
          rw [h2]
          have := ih [] (k' + 2) htail (by simp)
            (fun h => absurd (hk h) (by omega))
          simpa using this
    · rw [cleanSegs_push rooted c _ _ hc, ← List.cons_append]
      exact ih (c :: pre) k htail
        (fun x hx => by
          rcases List.mem_cons.mp hx with rfl | hx
          · exact ⟨hcgood, hc⟩
          · exact hpre x hx) hk

/-! ## Path lemmas: `goClean` characterization and idempotence -/

theorem goClean_body (s : String) (c : Char) (cs : List Char)
    (hs : s.data = c :: cs) :
    goClean s = (if c = '/' then
        (⟨'/' :: joinComps (cleanSegs (decide (c = '/')) []
          ((splitSlash (c :: cs)).filter
            (fun x => decide (x ≠ [] ∧ x ≠ ['.']))))⟩ : String)
      else if cleanSegs (decide (c = '/')) []
          ((splitSlash (c :: cs)).filter
            (fun x => decide (x ≠ [] ∧ x ≠ ['.']))) = [] then "."
      else ⟨joinComps (cleanSegs (decide (c = '/')) []
          ((splitSlash (c :: cs)).filter
            (fun x => decide (x ≠ [] ∧ x ≠ ['.']))))⟩) := by
  rw [goClean.eq_def, hs]

theorem filtered_comps_good (c : Char) (cs : List Char) :
    ∀ x ∈ (splitSlash (c :: cs)).filter
      (fun x => decide (x ≠ [] ∧ x ≠ ['.'])),
      x ≠ [] ∧ x ≠ ['.'] ∧ '/' ∉ x := by
  intro x hx
  have hmem := List.mem_filter.mp hx
  have hp := of_decide_eq_true hmem.2
  exact ⟨hp.1, hp.2,
    splitSlashAux_no_slash (c :: cs) [] (by simp) x hmem.1⟩

theorem clean_out_spec (c : Char) (cs : List Char) :
    ∃ k2 rest2,
      cleanSegs (decide (c = '/')) []
          ((splitSlash (c :: cs)).filter
            (fun x => decide (x ≠ [] ∧ x ≠ ['.']))) =
        List.replicate k2 dotdot ++ rest2 ∧
      (∀ x ∈ rest2, (x ≠ [] ∧ x ≠ ['.'] ∧ '/' ∉ x) ∧ x ≠ dotdot) ∧
      (decide (c = '/') = true → k2 = 0) := by
  have := cleanSegs_spec (decide (c = '/'))
    ((splitSlash (c :: cs)).filter (fun x => decide (x ≠ [] ∧ x ≠ ['.'])))
    [] 0 (filtered_comps_good c cs) (by simp) (fun _ => rfl)
  simpa using this

theorem goClean_spec (s : String) :
    goClean s = "." ∨ goClean s = "/" ∨
    ∃ (rooted : Bool) (out : List (List Char)), out ≠ [] ∧
      (∀ x ∈ out, x ≠ [] ∧ x ≠ ['.'] ∧ '/' ∉ x) ∧
      (∃ k rest, out = List.replicate k dotdot ++ rest ∧
        (∀ x ∈ rest, x ≠ dotdot) ∧ (rooted = true → k = 0)) ∧
      goClean s = (if rooted = true then (⟨'/' :: joinComps out⟩ : String)
        else ⟨joinComps out⟩) := by
  cases hs : s.data with
  | nil =>
    left
    rw [goClean.eq_def, hs]
  | cons c cs =>
    have hbody := goClean_body s c cs hs
    obtain ⟨k2, rest2, hout, hrest2, hk2⟩ := clean_out_spec c cs
    have hgoodout : ∀ x ∈ cleanSegs (decide (c = '/')) []
        ((splitSlash (c :: cs)).filter
          (fun x => decide (x ≠ [] ∧ x ≠ ['.']))),
        x ≠ [] ∧ x ≠ ['.'] ∧ '/' ∉ x := by
      intro x hx
      rw [hout] at hx
      rcases List.mem_append.mp hx with hx | hx
      · have := List.eq_of_mem_replicate hx
        subst this
        refine ⟨by simp [dotdot], by simp [dotdot], by simp [dotdot]⟩
      · exact (hrest2 x hx).1
    by_cases hslash : c = '/'
    · by_cases hnil : cleanSegs (decide (c = '/')) []
          ((splitSlash (c :: cs)).filter
            (fun x => decide (x ≠ [] ∧ x ≠ ['.']))) = []
      · right; left
        rw [hbody, if_pos hslash, hnil]
        rfl
      · right; right
        refine ⟨true, _, hnil, hgoodout, ⟨k2, rest2, hout, ?_, ?_⟩, ?_⟩
        · intro x hx; exact (hrest2 x hx).2
        · intro _; exact hk2 (by simp [hslash])
        · rw [hbody, if_pos hslash, if_pos rfl]
    · by_cases hnil : cleanSegs (decide (c = '/')) []
          ((splitSlash (c :: cs)).filter
            (fun x => decide (x ≠ [] ∧ x ≠ ['.']))) = []
      · left
        rw [hbody, if_neg hslash, if_pos hnil]
      · right; right
        refine ⟨false, _, hnil, hgoodout, ⟨k2, rest2, hout, ?_, ?_⟩, ?_⟩
        · intro x hx; exact (hrest2 x hx).2
        · intro h; exact absurd h (by simp)
        · rw [hbody, if_neg hslash, if_neg hnil]
          simp

theorem joinComps_cons_head (ch : Char) (o0t : List Char)
    (rest : List (List Char)) :
    ∃ tail, joinComps ((ch :: o0t) :: rest) = ch :: tail := by
  cases rest with
  | nil => exact ⟨o0t, rfl⟩
  | cons y r => exact ⟨o0t ++ '/' :: joinComps (y :: r), rfl⟩

theorem filter_good_eq_self (out : List (List Char))
    (hgood : ∀ x ∈ out, x ≠ [] ∧ x ≠ ['.'] ∧ '/' ∉ x) :
    out.filter (fun x => decide (x ≠ [] ∧ x ≠ ['.'])) = out := by
  rw [List.filter_eq_self]
  intro x hx
  exact decide_eq_true ⟨(hgood x hx).1, (hgood x hx).2.1⟩

theorem goClean_rooted_render (out : List (List Char)) (hne : out ≠ [])
    (hgood : ∀ x ∈ out, x ≠ [] ∧ x ≠ ['.'] ∧ '/' ∉ x)
    (hnodd : ∀ x ∈ out, x ≠ dotdot) :
    goClean ⟨'/' :: joinComps out⟩ = ⟨'/' :: joinComps out⟩ := by
  have hdata : (⟨'/' :: joinComps out⟩ : String).data = '/' :: joinComps out :=
    rfl
  rw [goClean_body _ '/' (joinComps out) hdata, if_pos rfl]
  have hsplit : splitSlash ('/' :: joinComps out) = [] :: out := by
    unfold splitSlash
    rw [splitSlashAux.eq_def]
    dsimp only
    rw [if_pos rfl]
    have : splitSlashAux (joinComps out) [] = out :=
      splitSlash_joinComps out hne (fun x hx => (hgood x hx).2.2)
    rw [this]
    rfl
  rw [hsplit]
  have hfilter : (([] : List Char) :: out).filter
      (fun x => decide (x ≠ [] ∧ x ≠ ['.'])) = out := by
    rw [List.filter_cons, if_neg (by simp)]
    exact filter_good_eq_self out hgood
  rw [hfilter]
  rw [show decide (('/' : Char) = '/') = true from by decide]
  rw [cleanSegs_no_dotdot true out [] hnodd]
  simp

theorem goClean_unrooted_render (out : List (List Char)) (hne : out ≠ [])
    (hgood : ∀ x ∈ out, x ≠ [] ∧ x ≠ ['.'] ∧ '/' ∉ x)
    (k : Nat) (rest : List (List Char))
    (hshape : out = List.replicate k dotdot ++ rest)
    (hrest : ∀ x ∈ rest, x ≠ dotdot) :
    goClean ⟨joinComps out⟩ = ⟨joinComps out⟩ := by
  obtain ⟨o0, rest', rfl⟩ : ∃ o0 rest', out = o0 :: rest' := by
    cases out with
    | nil => exact absurd rfl hne
    | cons a b => exact ⟨a, b, rfl⟩
  obtain ⟨ch, o0t, rfl⟩ : ∃ ch o0t, o0 = ch :: o0t := by
    cases o0 with
    | nil => exact absurd rfl (hgood [] (by simp)).1
    | cons a b => exact ⟨a, b, rfl⟩
  have hch : ch ≠ '/' := by
    intro h
    exact (hgood (ch :: o0t) (by simp)).2.2 (h ▸ List.mem_cons_self ch o0t)
  obtain ⟨tail, htail⟩ := joinComps_cons_head ch o0t rest'
  have hdata : (⟨joinComps ((ch :: o0t) :: rest')⟩ : String).data =
      ch :: tail := htail
  rw [goClean_body _ ch tail hdata, if_neg hch]
  have hsp : splitSlash (ch :: tail) = (ch :: o0t) :: rest' := by
    rw [← htail]
    exact splitSlash_joinComps _ hne (fun x hx => (hgood x hx).2.2)
  rw [hsp, filter_good_eq_self _ hgood]
  rw [decide_eq_false hch]
  rw [hshape]
  have hclean : cleanSegs false [] (List.replicate k dotdot ++ rest) =
      List.replicate k dotdot ++ rest := by
    have h0 : ([] : List (List Char)) = List.replicate 0 dotdot := rfl
    rw [h0, cleanSegs_dotdots k 0 rest hrest, Nat.zero_add]
  rw [hclean, ← hshape, if_neg hne]

theorem goClean_idem (s : String) : goClean (goClean s) = goClean s := by
  rcases goClean_spec s with h | h |
    ⟨rooted, out, hne, hgood, ⟨k, rest, hshape, hrest, hk⟩, heq⟩
  · rw [h]; decide
  · rw [h]; decide
  · cases rooted with
    | true =>
      rw [if_pos rfl] at heq
      rw [heq]
      refine goClean_rooted_render out hne hgood ?_
      have hout' : out = rest := by
        rw [hshape, hk rfl]
        simp
      rw [hout']
      exact hrest
    | false =>
      rw [if_neg (by simp)] at heq
      rw [heq]
      exact goClean_unrooted_render out hne hgood k rest hshape hrest

/-! ## Path lemmas: `stripCommon`, `goRel` and the sandbox core -/

theorem stripCommon_nil_pre : ∀ (x y : List (List Char)),
    (stripCommon x y).1 = [] → x <+: y := by
  intro x
  induction x with
  | nil => intro y _; exact List.nil_prefix
  | cons a x' ih =>
    intro y h
    cases y with
    | nil => simp [stripCommon] at h
    | cons b y' =>
      by_cases hab : a = b
      · subst hab
        rw [stripCommon, if_pos rfl] at h
        exact List.cons_prefix_cons.mpr ⟨rfl, ih y' h⟩
      · rw [stripCommon, if_neg hab] at h
        simp at h

theorem normComps_single_dot {B : String} (h : normComps B = [['.']]) :
    B = "." := by
  unfold normComps at h
  split at h
  · simp at h
  · unfold relComps at h
    split at h
    · simp at h
    · have := splitSlash_eq_singleton h
      exact String.ext this

theorem pre_singleton {α : Type} {x : List α} {a : α} (h : x <+: [a]) :
    x = [] ∨ x = [a] := by
  rcases h with ⟨s, hs⟩
  cases x with
  | nil => exact Or.inl rfl
  | cons x0 xt =>
    right
    rw [List.cons_append] at hs
    have h1 : x0 = a ∧ xt ++ s = [] := by
      have := List.cons.inj hs
      exact ⟨this.1, this.2⟩
    have h2 : xt = [] := (List.append_eq_nil.mp h1.2).1
    rw [h1.1, h2]

theorem baseConv_rooted (B : String) :
    isRootedStr (if B = "." then "" else B) = isRootedStr B := by
  by_cases hB : B = "."
  · rw [if_pos hB, hB]
    decide
  · rw [if_neg hB]

/-- Core sandbox soundness: if the `Rel`-and-`HasPrefix` check accepts,
the (cleaned) candidate path lies inside the (cleaned) base per the
spec's containment notion. -/
theorem rel_accept_inside (b t : String) :
    pathEscapes b t = false → resolvesInside b t = true := by
  intro h
  unfold pathEscapes at h
  unfold goRel at h
  unfold resolvesInside
  dsimp only at h ⊢
  by_cases hEq : goClean t = goClean b
  · rw [hEq, Bool.and_eq_true]
    exact ⟨beq_self_eq_true _,
      isPre_iff.mpr (List.prefix_refl (normComps (goClean b)))⟩
  · rw [if_neg hEq] at h
    by_cases hSl : isRootedStr (if goClean b = "." then "" else goClean b) ≠
        isRootedStr (goClean t)
    · rw [if_pos hSl] at h
      simp at h
    · rw [if_neg hSl] at h
      push_neg at hSl
      by_cases hHead : (stripCommon (normComps (goClean b))
          (relComps (goClean t).data)).1.head? = some dotdot
      · rw [if_pos hHead] at h
        simp at h
      · rw [if_neg hHead] at h
        by_cases hP1 : (stripCommon (normComps (goClean b))
            (relComps (goClean t).data)).1 = []
        · have hpre : normComps (goClean b) <+: relComps (goClean t).data :=
            stripCommon_nil_pre _ _ hP1
          rw [Bool.and_eq_true]
          constructor
          · rw [← baseConv_rooted (goClean b), hSl]
            exact beq_self_eq_true _
          · by_cases hT : goClean t = "."
            · have hNT : normComps (goClean t) = [] := by
                rw [normComps, if_pos hT]
              rw [hT] at hpre
              have hrc : relComps (("." : String)).data = [['.']] := rfl
              rw [hrc] at hpre
              have hNB : normComps (goClean b) = [] := by
                rcases pre_singleton hpre with hB | hB
                · exact hB
                · have := normComps_single_dot hB
                  rw [this] at hB
                  rw [normComps, if_pos rfl] at hB
                  simp at hB
              rw [hNT, hNB]
              rfl
            · have : normComps (goClean t) = relComps (goClean t).data := by
                rw [normComps, if_neg hT]
              rw [this]
              exact isPre_iff.mpr hpre
        · exfalso
          rw [if_neg hP1] at h
          apply absurd h
          simp only [Bool.not_eq_false]
          cases hL : (stripCommon (normComps (goClean b))
              (relComps (goClean t).data)).1 with
          | nil => exact absurd hL hP1
          | cons p0 pt =>
            obtain ⟨tail, htail⟩ := joinComps_dotdot_cons
              (List.replicate pt.length dotdot ++
                (stripCommon (normComps (goClean b))
                  (relComps (goClean t).data)).2)
            rw [List.length_cons, List.replicate_succ, List.cons_append,
              htail]
            unfold goHasPre
            exact isPre_iff.mpr ⟨tail, rfl⟩

theorem goRel_clean_left (b t : String) :
    goRel (goClean b) t = goRel b t := by
  simp only [goRel, goClean_idem]

theorem goRel_clean_right (b t : String) :
    goRel b (goClean t) = goRel b t := by
  simp only [goRel, goClean_idem]

theorem pathEscapes_clean (b t : String) :
    pathEscapes (goClean b) (goClean t) = pathEscapes b t := by
  unfold pathEscapes
  rw [goRel_clean_left, goRel_clean_right]

theorem resolvesInside_clean (b t : String) :
    resolvesInside (goClean b) (goClean t) = resolvesInside b t := by
  simp only [resolvesInside, goClean_idem]

/-! ## C2: the read-side sandbox check -/

/-- **C2 (amended).** The `list_directory`/`read_file` sandbox check is
sound but not exact: every accepted request's joined path normalizes
inside the package root, and every path normalizing outside the root is
denied — but denial also hits some inside paths, namely those whose
relative path from the root begins with the two characters `..` (e.g. an
entry named `..hidden`).  A denied request returns the access-denied
`ToolResult` and touches no file; an accepted request operates on the
joined (root-relative, absolute for an absolute root) path. -/
theorem claim_C2 :
    (∀ (packageRoot path : String),
      pathEscapes (goClean packageRoot)
          (goClean (goJoin packageRoot path)) = false →
      resolvesInside packageRoot (goJoin packageRoot path) = true) ∧
    (∀ (packageRoot path : String),
      resolvesInside packageRoot (goJoin packageRoot path) = false →
      pathEscapes (goClean packageRoot)
          (goClean (goJoin packageRoot path)) = true) ∧
    (∀ (packageRoot path : String)
      (readDir : String → Except String (List DirEntry)),
      pathEscapes (goClean packageRoot)
          (goClean (goJoin packageRoot path)) = true →
      listDirectoryHandler packageRoot (some path) readDir =
        (⟨"", "access denied: path outside package root"⟩, [])) ∧
    (∀ (packageRoot path : String)
      (readDir : String → Except String (List DirEntry)),
      pathEscapes (goClean packageRoot)
          (goClean (goJoin packageRoot path)) = false →
      (listDirectoryHandler packageRoot (some path) readDir).2 =
        [FsOp.readDir (goJoin packageRoot path)]) := by
  refine ⟨?_, ?_, ?_, ?_⟩
  · intro packageRoot path h
    rw [pathEscapes_clean] at h
    exact rel_accept_inside _ _ h
  · intro packageRoot path h
    cases hE : pathEscapes (goClean packageRoot)
        (goClean (goJoin packageRoot path)) with
    | true => rfl
    | false =>
      rw [pathEscapes_clean] at hE
      rw [rel_accept_inside _ _ hE] at h
      exact absurd h (by simp)
  · intro packageRoot path readDir h
    unfold listDirectoryHandler
    dsimp only
    rw [if_pos h]
  · intro packageRoot path readDir h
    unfold listDirectoryHandler
    dsimp only
    rw [if_neg (by rw [h]; exact Bool.false_ne_true)]
    cases readDir (goJoin packageRoot path) <;> rfl

/-- Counterexample to C2 as stated: for root `/pkg` the requested path
`..hidden` normalizes to `/pkg/..hidden`, which lies inside the root,
yet the check denies it (the relative path `..hidden` has string prefix
`..`) — so denial is not *exactly* "normalizes outside root". -/
theorem claim_C2_counterexample :
    pathEscapes (goClean "/pkg") (goClean (goJoin "/pkg" "..hidden")) = true ∧
    resolvesInside "/pkg" (goJoin "/pkg" "..hidden") = true ∧
    listDirectoryHandler "/pkg" (some "..hidden") (fun _ => Except.ok []) =
      (⟨"", "access denied: path outside package root"⟩, []) := by
  refine ⟨by decide, by decide, by decide⟩

/-- Witness for C2 (amended) at concrete accepted and denied inputs. -/
theorem claim_C2_witness :
    resolvesInside "/pkg" (goJoin "/pkg" "data/stream.yml") = true ∧
    (listDirectoryHandler "/pkg" (some "data/stream.yml")
        (fun _ => Except.ok [])).2 =
      [FsOp.readDir (goJoin "/pkg" "data/stream.yml")] ∧
    listDirectoryHandler "/pkg" (some "../other")
        (fun _ => Except.ok []) =
      (⟨"", "access denied: path outside package root"⟩, []) :=
  ⟨claim_C2.1 "/pkg" "data/stream.yml" (by decide),
   claim_C2.2.2.2 "/pkg" "data/stream.yml" (fun _ => Except.ok [])
     (by decide),
   claim_C2.2.2.1 "/pkg" "../other" (fun _ => Except.ok []) (by decide)⟩

/-! ## C3: the write-side sandbox check -/

/-- **C3.** `write_file` denies (with the access-denied error, performing
no filesystem operation) every request whose joined path resolves
lexically outside the fixed `<root>/_dev/build/docs` subdirectory; every
write it does perform targets a path inside that subdirectory, is
preceded by creating the parent directory chain, and fully replaces the
file's content with the given content (other paths are untouched).
A malformed argument string also performs no operation. -/
theorem claim_C3 :
    (∀ (packageRoot path content : String),
      resolvesInside (goJoinList [packageRoot, "_dev", "build", "docs"])
          (goJoin packageRoot path) = false →
      writeFileHandler packageRoot (some (path, content)) =
        (⟨"", "access denied: path outside allowed directory"⟩, [])) ∧
    (∀ (packageRoot path content : String),
      (writeFileHandler packageRoot (some (path, content))).1.error = "" →
      (writeFileHandler packageRoot (some (path, content))).2 =
        [FsOp.mkdirAll (goDir (goJoin packageRoot path)),
         FsOp.writeFile (goJoin packageRoot path) content] ∧
      resolvesInside (goJoinList [packageRoot, "_dev", "build", "docs"])
          (goJoin packageRoot path) = true ∧
      ∀ fs : FS,
        applyOps fs (writeFileHandler packageRoot (some (path, content))).2
          (goJoin packageRoot path) = some content ∧
        ∀ q, q ≠ goJoin packageRoot path →
          applyOps fs
            (writeFileHandler packageRoot (some (path, content))).2 q =
            fs q) ∧
    (∀ packageRoot : String, (writeFileHandler packageRoot none).2 = []) := by
  refine ⟨?_, ?_, ?_⟩
  · intro packageRoot path content h
    have hE : pathEscapes
        (goClean (goJoinList [packageRoot, "_dev", "build", "docs"]))
        (goClean (goJoin packageRoot path)) = true := by
      cases hE : pathEscapes
          (goClean (goJoinList [packageRoot, "_dev", "build", "docs"]))
          (goClean (goJoin packageRoot path)) with
      | true => rfl
      | false =>
        rw [pathEscapes_clean] at hE
        rw [rel_accept_inside _ _ hE] at h
        exact absurd h (by simp)
    unfold writeFileHandler
    dsimp only
    rw [if_pos hE]
  · intro packageRoot path content h
    cases hE : pathEscapes
        (goClean (goJoinList [packageRoot, "_dev", "build", "docs"]))
        (goClean (goJoin packageRoot path)) with
    | true =>
      exfalso
      unfold writeFileHandler at h
      dsimp only at h
      rw [if_pos hE] at h
      exact absurd h (by decide)
    | false =>
      have hw : writeFileHandler packageRoot (some (path, content)) =
          (⟨"Successfully wrote " ++ toString content.utf8ByteSize ++
              " bytes to " ++ path, ""⟩,
           [FsOp.mkdirAll (goDir (goJoin packageRoot path)),
            FsOp.writeFile (goJoin packageRoot path) content]) := by
        unfold writeFileHandler
        dsimp only
        rw [if_neg (by rw [hE]; exact Bool.false_ne_true)]
      rw [hw]
      refine ⟨rfl, ?_, ?_⟩
      · rw [pathEscapes_clean] at hE
        exact rel_accept_inside _ _ hE
      · intro fs
        constructor
        · simp [applyOps, applyOp]
        · intro q hq
          simp [applyOps, applyOp, hq]
  · intro packageRoot
    rfl

/-- Witness for C3: a concrete accepted write inside the subdirectory
and a concrete denied write outside it. -/
theorem claim_C3_witness :
    (writeFileHandler "/pkg" (some ("_dev/build/docs/README.md", "# X"))).2 =
      [FsOp.mkdirAll (goDir (goJoin "/pkg" "_dev/build/docs/README.md")),
       FsOp.writeFile (goJoin "/pkg" "_dev/build/docs/README.md") "# X"] ∧
    resolvesInside (goJoinList ["/pkg", "_dev", "build", "docs"])
      (goJoin "/pkg" "_dev/build/docs/README.md") = true ∧
    applyOps (fun _ => none)
      (writeFileHandler "/pkg" (some ("_dev/build/docs/README.md", "# X"))).2
      (goJoin "/pkg" "_dev/build/docs/README.md") = some "# X" ∧
    writeFileHandler "/pkg" (some ("README.md", "# X")) =
      (⟨"", "access denied: path outside allowed directory"⟩, []) := by
  have h := claim_C3.2.1 "/pkg" "_dev/build/docs/README.md" "# X" (by decide)
  exact ⟨h.1, h.2.1, (h.2.2 (fun _ => none)).1,
    claim_C3.1 "/pkg" "README.md" "# X" (by decide)⟩

end LLMAgent
